import Mathlib

/-!
Shallow embedding of the query-matching/ranking engine and the repository
discovery traversal of `flow` (src/flow/src/lib.rs), together with proofs
of the specified properties.

Strings are modelled through their character lists; `caseFold` models
Rust's `str::to_lowercase` as a per-character fold, which agrees with it
on ASCII input.
-/

namespace Flow

/-- Models `to_lowercase`: case-fold a character list. -/
def caseFold (s : List Char) : List Char := s.map Char.toLower

/-- The scan loop of `fuzzy_match` (lib.rs:401-410): walk `target`,
advancing a cursor into `query` on every equal character; `true` once the
cursor is exhausted. -/
def matchLoop : List Char → List Char → Bool
  | qs, [] => qs.isEmpty
  | qs, c :: ts =>
    let qs' := match qs with
      | q :: rest => if q = c then rest else q :: rest
      | [] => []
    if qs'.isEmpty then true else matchLoop qs' ts

/-- Embeds `fuzzy_match` (lib.rs:394-411). -/
def fuzzy_match (query target : String) : Bool :=
  if query.data.isEmpty then true
  else matchLoop (caseFold query.data) (caseFold target.data)

/-- The scan loop of `fuzzy_score` (lib.rs:426-457): `full` is the whole
case-folded target (consulted for the separator bonus), the remaining
target chars are walked with index `i`, cursor `qs`, `last_match_pos`
`last`, `consecutive` counter `consec` and accumulated `score`.  Returns
the final score and the unconsumed query cursor. -/
def scoreLoop (full : List Char) : List Char → List Char → Nat → Option Nat → Int → Int →
    Int × List Char
  | [], qs, _, _, _, score => (score, qs)
  | c :: ts, qs, i, last, consec, score =>
    match qs with
    | q :: rest =>
      if q = c then
        let cb : Int × Int :=
          match last with
          | some l => if i = l + 1 then (consec + 1, (consec + 1) * 10) else (0, 0)
          | none => (consec, 0)
        let startBonus : Int := if i = 0 then 20 else 0
        let sepBonus : Int :=
          if 0 < i ∧ (full.get? (i - 1) = some '/' ∨ full.get? (i - 1) = some '-' ∨
              full.get? (i - 1) = some '_' ∨ full.get? (i - 1) = some ' ') then 15 else 0
        scoreLoop full ts rest (i + 1) (some i) cb.1 (score + cb.2 + startBonus + sepBonus + 5)
      else scoreLoop full ts (q :: rest) (i + 1) last consec score
    | [] => scoreLoop full ts [] (i + 1) last consec score

/-- Embeds `fuzzy_score` (lib.rs:414-464). -/
def fuzzy_score (query target : String) : Int :=
  if query.data.isEmpty then 0
  else
    let q := caseFold query.data
    let t := caseFold target.data
    let r := scoreLoop t t q 0 none 0 0
    if !r.2.isEmpty then -1 else r.1

/-- Embeds `fuzzy_sort` (lib.rs:467-476): a stable sort by descending
`fuzzy_score` of the key string (Rust's `sort_by` is stable; `mergeSort`
is its stable-sort counterpart). -/
def fuzzy_sort {α : Type} (items : List α) (query : String) (get_str : α → String) : List α :=
  items.mergeSort (fun a b =>
    decide (fuzzy_score query (get_str b) ≤ fuzzy_score query (get_str a)))

-- ===== helper lemmas about the greedy scan =====

/-- The query cursor left over after the greedy scan of the target. -/
def greedyRem : List Char → List Char → List Char
  | qs, [] => qs
  | qs, c :: ts =>
    match qs with
    | q :: rest => if q = c then greedyRem rest ts else greedyRem (q :: rest) ts
    | [] => greedyRem [] ts

-- ===== spec-side scoring (written from the spec's words, §4.4) =====

/-- The positions of the case-folded target at which the greedy
left-to-right scan consumes a query character (spec §4.3/§4.4), starting
the position count at `i`. -/
def greedyMatchPositions : List Char → List Char → Nat → List Nat
  | _, [], _ => []
  | [], _ :: _, _ => []
  | q :: qs, c :: ts, i =>
    if q = c then i :: greedyMatchPositions qs ts (i + 1)
    else greedyMatchPositions (q :: qs) ts (i + 1)

/-- Spec §4.4: per-consumed-character credit at position `i` of target
`t`: base `+5`, start-of-string `+20` at position 0, separator-boundary
`+15` when the preceding character is `/`, `-`, `_` or space. -/
def specCharCredit (t : List Char) (i : Nat) : Int :=
  5 + (if i = 0 then 20 else 0) +
    (if 0 < i ∧ (t.get? (i - 1) = some '/' ∨ t.get? (i - 1) = some '-' ∨
        t.get? (i - 1) = some '_' ∨ t.get? (i - 1) = some ' ') then 15 else 0)

/-- Spec §4.4: total consecutive-run bonus over the matched positions:
the run counter increments when a position is exactly one greater than
the previous matched position (contributing `counter * 10` after the
increment) and resets to `0` on any gap. -/
def specRunBonus : List Nat → Option Nat → Int → Int
  | [], _, _ => 0
  | p :: ps, last, counter =>
    match last with
    | some l =>
      if p = l + 1 then (counter + 1) * 10 + specRunBonus ps (some p) (counter + 1)
      else specRunBonus ps (some p) 0
    | none => specRunBonus ps (some p) counter

/-- Spec §4.4, assembled: the sum over greedily matched positions of the
per-character credits, plus the consecutive-run bonuses. -/
def spec_score (q t : List Char) : Int :=
  ((greedyMatchPositions q t 0).map (specCharCredit t)).sum +
    specRunBonus (greedyMatchPositions q t 0) none 0

-- ===== repository discovery =====

/-- A filesystem path, as its list of components. -/
abbrev FsPath := List String

/-- A filesystem node: a directory together with its `read_dir` listing
(entry name and the `file_type().is_dir()` bit), or a plain file. -/
inductive FsNode : Type
  | dir (entries : List (String × Bool)) : FsNode
  | file : FsNode
deriving DecidableEq

/-- The filesystem, mapping absolute paths to nodes (`none` where
`read_dir`/`stat` fails). -/
abbrev Fs := FsPath → Option FsNode

/-- Models `fs::read_dir`. -/
def readDir (fs : Fs) (p : FsPath) : Option (List (String × Bool)) :=
  match fs p with
  | some (FsNode.dir es) => some es
  | _ => none

/-- Models `Path::is_dir`. -/
def isDirAt (fs : Fs) (p : FsPath) : Bool :=
  match fs p with
  | some (FsNode.dir _) => true
  | _ => false

/-- Models `Path::is_file`. -/
def isFileAt (fs : Fs) (p : FsPath) : Bool :=
  match fs p with
  | some FsNode.file => true
  | _ => false

/-- Models `Path::exists`. -/
def existsAt (fs : Fs) (p : FsPath) : Bool :=
  (fs p).isSome

/-- Models `Path::to_string_lossy` on a component-list path. -/
def pathKey (p : FsPath) : String := String.intercalate "/" p

/-- Models `Path::strip_prefix`. -/
def stripRoot (root p : FsPath) : Option FsPath :=
  if root.isPrefixOf p then some (p.drop root.length) else none

/-- Models `str::starts_with('.')`. -/
def startsWithDot (name : String) : Bool :=
  match name.data with
  | c :: _ => c = '.'
  | [] => false

/-- Models Rust's `str` ordering (`Ord::cmp` as a Boolean ≤):
byte/codepoint lexicographic comparison. -/
def strLe : List Char → List Char → Bool
  | [], _ => true
  | _ :: _, [] => false
  | a :: as, b :: bs => if a < b then true else if b < a then false else strLe as bs

/-- Embeds `should_skip_dir` (lib.rs:601-624). -/
def should_skip_dir (name : String) : Bool :=
  if startsWithDot name then true
  else
    ["node_modules", "target", "dist", "build", "__pycache__", ".pytest_cache",
      ".mypy_cache", "venv", ".venv", "vendor", "Pods", ".cargo", ".rustup", ".next",
      ".turbo", ".cache"].contains name

/-- Embeds `CodeEntry` (lib.rs:483-488). -/
structure CodeEntry : Type where
  display : String
  path : FsPath
deriving DecidableEq

/-- The body of the `for entry in entries` loop of `discover_repos`
(lib.rs:502-532): each child that is a directory is either discarded by
`should_skip_dir`, recorded as a repository root (display relative to
`root`, deduplicated on the absolute path string), or pushed onto the
work-stack. -/
def processDir (fs : Fs) (root dir : FsPath) :
    List (String × Bool) → List FsPath → List String → List CodeEntry →
    List FsPath × List String × List CodeEntry
  | [], stack, seen, repos => (stack, seen, repos)
  | (name, d) :: rest, stack, seen, repos =>
    if !d then processDir fs root dir rest stack seen repos
    else if should_skip_dir name then processDir fs root dir rest stack seen repos
    else
      let path := dir ++ [name]
      let gitDir := path ++ [".git"]
      if isDirAt fs gitDir || isFileAt fs gitDir then
        let display :=
          match stripRoot root path with
          | some rel => pathKey rel
          | none => pathKey path
        let key := pathKey path
        if key ∈ seen then processDir fs root dir rest stack seen repos
        else processDir fs root dir rest stack (key :: seen)
          (repos ++ [{ display := display, path := path }])
      else processDir fs root dir rest (path :: stack) seen repos

/-- The work-stack loop of `discover_repos` (lib.rs:496-533), with
explicit fuel; `none` when the fuel runs out before the stack empties. -/
def discoverLoop (fs : Fs) (root : FsPath) :
    Nat → List FsPath → List String → List CodeEntry → Option (List CodeEntry)
  | 0, stack, _, repos =>
    match stack with
    | [] => some repos
    | _ :: _ => none
  | _ + 1, [], _, repos => some repos
  | fuel + 1, dir :: stack, seen, repos =>
    match readDir fs dir with
    | none => discoverLoop fs root fuel stack seen repos
    | some entries =>
      let r := processDir fs root dir entries stack seen repos
      discoverLoop fs root fuel r.1 r.2.1 r.2.2

/-- Embeds `discover_repos` (lib.rs:491-537): traverse from `root` with a
work-stack seeded with `root`, then sort the entries by `display`
ascending. -/
def discover_repos (fs : Fs) (fuel : Nat) (root : FsPath) : Option (List CodeEntry) :=
  (discoverLoop fs root fuel [root] [] []).map
    (fun repos => repos.mergeSort (fun a b => strLe a.display.data b.display.data))

/-- Embeds `discover_repos_structured` (lib.rs:540-599): exactly two
listing levels (`root/owner/repo`), skipping dot-prefixed names; a repo
qualifies when `owner/repo/.git` exists in any form. -/
def discover_repos_structured (fs : Fs) (root : FsPath) : List CodeEntry :=
  let repos :=
    match readDir fs root with
    | none => []
    | some owners =>
      owners.flatMap (fun ow =>
        let ownerPath := root ++ [ow.1]
        if !isDirAt fs ownerPath then []
        else if startsWithDot ow.1 then []
        else
          match readDir fs ownerPath with
          | none => []
          | some repoEntries =>
            repoEntries.filterMap (fun (re : String × Bool) =>
              let repoPath := ownerPath ++ [re.1]
              if !isDirAt fs repoPath then none
              else if startsWithDot re.1 then none
              else if existsAt fs (repoPath ++ [".git"]) then
                some (CodeEntry.mk (ow.1 ++ "/" ++ re.1) repoPath)
              else none))
  repos.mergeSort (fun a b => strLe a.display.data b.display.data)


-- ===== traversal invariant predicates and witness fixtures =====

/-- Every component survives the skip filter. -/
def skipFree (rel : List String) : Prop := ∀ c ∈ rel, should_skip_dir c = false

/-- A directory the unbounded traversal may visit: `root` extended by a
skip-free relative path. -/
def goodDir (root p : FsPath) : Prop := ∃ rel, p = root ++ rel ∧ skipFree rel

/-- An entry the unbounded traversal may record: strictly below `root`,
reached through skip-free components only. -/
def goodEntry (root : FsPath) (e : CodeEntry) : Prop :=
  ∃ rel, e.path = root ++ rel ∧ rel ≠ [] ∧ skipFree rel

/-- Agreement of two filesystems on every path the unbounded traversal
from `root` can consult: skip-free extensions of `root`, and their
`.git` children. -/
def agreeOnReachable (fs fs' : Fs) (root : FsPath) : Prop :=
  ∀ rel : List String, skipFree rel →
    fs (root ++ rel) = fs' (root ++ rel) ∧
    fs (root ++ rel ++ [".git"]) = fs' (root ++ rel ++ [".git"])

/-- A concrete filesystem for the witnesses: the scan root `["r"]` itself
carries a `.git` marker, lists a repository `proj` twice, a repository
`sub/inner` marked by a `.git` file, and a decoy repository hidden inside
`node_modules`. -/
def fsEx : Fs := fun p =>
  if p = ["r"] then
    some (FsNode.dir [("sub", true), ("node_modules", true), ("proj", true), ("proj", true),
      (".git", true), ("afile", false)])
  else if p = ["r", ".git"] then some (FsNode.dir [])
  else if p = ["r", "proj"] then some (FsNode.dir [(".git", true)])
  else if p = ["r", "proj", ".git"] then some (FsNode.dir [])
  else if p = ["r", "node_modules"] then some (FsNode.dir [("hidden", true)])
  else if p = ["r", "node_modules", "hidden"] then some (FsNode.dir [(".git", true)])
  else if p = ["r", "node_modules", "hidden", ".git"] then some (FsNode.dir [])
  else if p = ["r", "sub"] then some (FsNode.dir [("inner", true)])
  else if p = ["r", "sub", "inner"] then some (FsNode.dir [(".git", false)])
  else if p = ["r", "sub", "inner", ".git"] then some FsNode.file
  else none

/-- Variant of `fsEx` with the decoy repository inside `node_modules` deleted: it
agrees with `fsEx` on every path reachable from `["r"]`. -/
def fsEx2 : Fs := fun p =>
  if p = ["r", "node_modules", "hidden"] then none
  else if p = ["r", "node_modules", "hidden", ".git"] then none
  else fsEx p

-- ===== theorems =====

theorem greedyRem_nil_left : ∀ ts, greedyRem [] ts = []
  | [] => rfl
  | _ :: ts => greedyRem_nil_left ts

theorem matchLoop_eq_greedyRem : ∀ ts qs, matchLoop qs ts = (greedyRem qs ts).isEmpty := by
  intro ts
  induction ts with
  | nil => intro qs; rfl
  | cons c ts ih =>
    intro qs
    match qs with
    | [] =>
      simp only [matchLoop, greedyRem, List.isEmpty_nil, if_pos]
      rw [greedyRem_nil_left]
      rfl
    | q :: rest =>
      by_cases h : q = c
      · simp only [matchLoop, greedyRem, if_pos h]
        by_cases hr : rest.isEmpty
        · rw [if_pos hr]
          match rest, hr with
          | [], _ => rw [greedyRem_nil_left]; rfl
        · rw [if_neg hr, ih]
      · simp only [matchLoop, greedyRem, if_neg h]
        rw [if_neg (by simp), ih]

theorem greedyRem_nil_iff_sublist : ∀ ts qs : List Char,
    greedyRem qs ts = [] ↔ List.Sublist qs ts := by
  intro ts
  induction ts with
  | nil =>
    intro qs
    simp only [greedyRem, List.sublist_nil]
  | cons c ts ih =>
    intro qs
    match qs with
    | [] =>
      simp only [greedyRem, greedyRem_nil_left, List.nil_sublist]
    | q :: rest =>
      by_cases h : q = c
      · subst h
        have hg : greedyRem (q :: rest) (q :: ts) = greedyRem rest ts := by
          simp [greedyRem]
        rw [hg, ih]
        constructor
        · intro hs; exact List.Sublist.cons₂ q hs
        · intro hs
          cases hs with
          | cons _ hs => exact (List.sublist_of_cons_sublist hs)
          | cons₂ _ hs => exact hs
      · simp only [greedyRem, if_neg h, ih]
        constructor
        · intro hs; exact List.Sublist.cons c hs
        · intro hs
          cases hs with
          | cons _ hs => exact hs
          | cons₂ _ hs => exact absurd rfl h


theorem greedyMatchPositions_nil_left : ∀ (ts : List Char) (i : Nat),
    greedyMatchPositions [] ts i = []
  | [], _ => rfl
  | _ :: _, _ => rfl

/-- The scoring loop computes exactly the spec's sum over the greedily
matched positions, and leaves exactly the greedy remainder of the query
cursor. -/
theorem scoreLoop_spec (full : List Char) : ∀ ts qs i last consec score,
    scoreLoop full ts qs i last consec score =
      (score + ((greedyMatchPositions qs ts i).map (specCharCredit full)).sum +
         specRunBonus (greedyMatchPositions qs ts i) last consec,
       greedyRem qs ts) := by
  intro ts
  induction ts with
  | nil =>
    intro qs i last consec score
    match qs with
    | [] => simp [scoreLoop, greedyMatchPositions, specRunBonus, greedyRem]
    | q :: rest => simp [scoreLoop, greedyMatchPositions, specRunBonus, greedyRem]
  | cons c ts ih =>
    intro qs i last consec score
    match qs with
    | [] =>
      rw [show scoreLoop full (c :: ts) [] i last consec score =
            scoreLoop full ts [] (i + 1) last consec score from rfl]
      rw [ih]
      simp [greedyMatchPositions, greedyMatchPositions_nil_left, specRunBonus, greedyRem,
        greedyRem_nil_left]
    | q :: rest =>
      by_cases h : q = c
      · subst h
        have hg : greedyMatchPositions (q :: rest) (q :: ts) i =
            i :: greedyMatchPositions rest ts (i + 1) := by
          simp [greedyMatchPositions]
        have hr : greedyRem (q :: rest) (q :: ts) = greedyRem rest ts := by
          simp [greedyRem]
        rw [hg, hr]
        match last with
        | none =>
          rw [show scoreLoop full (q :: ts) (q :: rest) i none consec score =
                scoreLoop full ts rest (i + 1) (some i) consec
                  (score + 0 + (if i = 0 then 20 else 0) +
                    (if 0 < i ∧ (full.get? (i - 1) = some '/' ∨ full.get? (i - 1) = some '-' ∨
                        full.get? (i - 1) = some '_' ∨ full.get? (i - 1) = some ' ')
                      then 15 else 0) + 5)
              from by simp [scoreLoop]]
          rw [ih]
          simp only [specRunBonus, List.map_cons, List.sum_cons, specCharCredit]
          rw [Prod.mk.injEq]
          exact ⟨by ring, rfl⟩
        | some l =>
          by_cases hi : i = l + 1
          · rw [show scoreLoop full (q :: ts) (q :: rest) i (some l) consec score =
                  scoreLoop full ts rest (i + 1) (some i) (consec + 1)
                    (score + (consec + 1) * 10 + (if i = 0 then 20 else 0) +
                      (if 0 < i ∧ (full.get? (i - 1) = some '/' ∨ full.get? (i - 1) = some '-' ∨
                          full.get? (i - 1) = some '_' ∨ full.get? (i - 1) = some ' ')
                        then 15 else 0) + 5)
                from by simp [scoreLoop, hi]]
            rw [ih]
            simp only [specRunBonus, if_pos hi, List.map_cons, List.sum_cons, specCharCredit]
            rw [Prod.mk.injEq]
            exact ⟨by ring, rfl⟩
          · rw [show scoreLoop full (q :: ts) (q :: rest) i (some l) consec score =
                  scoreLoop full ts rest (i + 1) (some i) 0
                    (score + 0 + (if i = 0 then 20 else 0) +
                      (if 0 < i ∧ (full.get? (i - 1) = some '/' ∨ full.get? (i - 1) = some '-' ∨
                          full.get? (i - 1) = some '_' ∨ full.get? (i - 1) = some ' ')
                        then 15 else 0) + 5)
                from by simp [scoreLoop, hi]]
            rw [ih]
            simp only [specRunBonus, if_neg hi, List.map_cons, List.sum_cons, specCharCredit]
            rw [Prod.mk.injEq]
            exact ⟨by ring, rfl⟩
      · have hg : greedyMatchPositions (q :: rest) (c :: ts) i =
            greedyMatchPositions (q :: rest) ts (i + 1) := by
          simp [greedyMatchPositions, h]
        have hr : greedyRem (q :: rest) (c :: ts) = greedyRem (q :: rest) ts := by
          simp [greedyRem, h]
        rw [hg, hr,
          show scoreLoop full (c :: ts) (q :: rest) i last consec score =
            scoreLoop full ts (q :: rest) (i + 1) last consec score from by simp [scoreLoop, h],
          ih]


theorem data_eq_nil_of_isEmpty {s : String} (h : s.data.isEmpty = true) : s.data = [] := by
  cases hd : s.data with
  | nil => rfl
  | cons a l => rw [hd] at h; simp at h

theorem specRunBonus_nonneg : ∀ (ps : List Nat) (last : Option Nat) (counter : Int),
    0 ≤ counter → 0 ≤ specRunBonus ps last counter := by
  intro ps
  induction ps with
  | nil => intro last counter _; exact le_refl 0
  | cons p ps ih =>
    intro last counter h
    match last with
    | none => exact ih (some p) counter h
    | some l =>
      by_cases hp : p = l + 1
      · rw [show specRunBonus (p :: ps) (some l) counter =
              (counter + 1) * 10 + specRunBonus ps (some p) (counter + 1)
            from by simp [specRunBonus, hp]]
        have h1 : (0 : Int) ≤ counter + 1 := by linarith
        have h2 := ih (some p) (counter + 1) h1
        nlinarith
      · rw [show specRunBonus (p :: ps) (some l) counter = specRunBonus ps (some p) 0
            from by simp [specRunBonus, hp]]
        exact ih (some p) 0 (le_refl 0)

theorem specCharCredit_ge_five (t : List Char) (i : Nat) : 5 ≤ specCharCredit t i := by
  unfold specCharCredit
  have h1 : (0 : Int) ≤ if i = 0 then 20 else 0 := by split <;> norm_num
  have h2 : (0 : Int) ≤
      if 0 < i ∧ (t.get? (i - 1) = some '/' ∨ t.get? (i - 1) = some '-' ∨
          t.get? (i - 1) = some '_' ∨ t.get? (i - 1) = some ' ') then 15 else 0 := by
    split <;> norm_num
  linarith

theorem sum_map_specCharCredit_ge (t : List Char) : ∀ ps : List Nat,
    5 * (ps.length : Int) ≤ (ps.map (specCharCredit t)).sum := by
  intro ps
  induction ps with
  | nil => simp
  | cons p ps ih =>
    simp only [List.map_cons, List.sum_cons, List.length_cons]
    have := specCharCredit_ge_five t p
    push_cast
    linarith

theorem greedyMatchPositions_length : ∀ (ts qs : List Char) (i : Nat),
    (greedyMatchPositions qs ts i).length + (greedyRem qs ts).length = qs.length := by
  intro ts
  induction ts with
  | nil =>
    intro qs i
    cases qs <;> simp [greedyMatchPositions, greedyRem]
  | cons c ts ih =>
    intro qs i
    match qs with
    | [] => simp [greedyMatchPositions_nil_left, greedyRem_nil_left]
    | q :: rest =>
      by_cases h : q = c
      · have hrec := ih rest (i + 1)
        simp only [greedyMatchPositions, greedyRem, if_pos h, List.length_cons]
        omega
      · have hrec := ih (q :: rest) (i + 1)
        simp only [greedyMatchPositions, greedyRem, if_neg h] at hrec ⊢
        omega

-- ===== claim theorems: matching and scoring =====

/-- Claim C3: `fuzzy_match` returns true exactly when the case-folded query
is an ordered (not necessarily contiguous) subsequence of the case-folded
target; in particular the empty query matches every target. -/
theorem fuzzy_match_iff_subsequence (query target : String) :
    (fuzzy_match query target = true ↔
      List.Sublist (caseFold query.data) (caseFold target.data)) ∧
    fuzzy_match "" target = true := by
  refine ⟨?_, rfl⟩
  unfold fuzzy_match
  by_cases hq : query.data.isEmpty
  · rw [if_pos hq, data_eq_nil_of_isEmpty hq]
    simp [caseFold]
  · rw [if_neg hq, matchLoop_eq_greedyRem]
    rw [List.isEmpty_iff]
    exact greedyRem_nil_iff_sublist _ _

/-- Claim C2: whenever the case-folded query is an ordered subsequence of
the case-folded target, `fuzzy_score` equals the spec's sum over the
greedily matched positions of `+5` base credit, `+20` at position 0,
`+15` after a `/`, `-`, `_` or space, plus the consecutive-run bonuses
`run_counter * 10`; and the empty query scores `0`. -/
theorem fuzzy_score_eq_spec_score (query target : String)
    (h : List.Sublist (caseFold query.data) (caseFold target.data)) :
    fuzzy_score query target =
      spec_score (caseFold query.data) (caseFold target.data) ∧
    fuzzy_score "" target = 0 := by
  refine ⟨?_, rfl⟩
  unfold fuzzy_score
  by_cases hq : query.data.isEmpty
  · rw [if_pos hq, data_eq_nil_of_isEmpty hq]
    simp [spec_score, caseFold, greedyMatchPositions_nil_left, specRunBonus]
  · rw [if_neg hq]
    have hrem : greedyRem (caseFold query.data) (caseFold target.data) = [] :=
      (greedyRem_nil_iff_sublist _ _).mpr h
    simp only [scoreLoop_spec, hrem, spec_score]
    simp

/-- Claim C4: a non-matching query is reported through the `-1` sentinel:
whenever `fuzzy_match` is false, `fuzzy_score` returns exactly `-1`,
discarding any partially accrued score. -/
theorem fuzzy_score_sentinel_of_nonmatch (query target : String)
    (h : fuzzy_match query target = false) : fuzzy_score query target = -1 := by
  unfold fuzzy_match at h
  by_cases hq : query.data.isEmpty
  · rw [if_pos hq] at h
    exact absurd h (by simp)
  · rw [if_neg hq, matchLoop_eq_greedyRem] at h
    unfold fuzzy_score
    rw [if_neg hq]
    simp only [scoreLoop_spec]
    simp [h]

/-- Claim C10: under the match precondition the `-1` branch of
`fuzzy_score` is unreachable: the score is nonnegative, and for a
non-empty query it is at least `5` per case-folded query character. -/
theorem fuzzy_score_nonneg_of_match (query target : String)
    (h : fuzzy_match query target = true) :
    0 ≤ fuzzy_score query target ∧
      (query.data ≠ [] →
        5 * ((caseFold query.data).length : Int) ≤ fuzzy_score query target) := by
  by_cases hq : query.data.isEmpty
  · refine ⟨?_, fun hne => absurd (data_eq_nil_of_isEmpty hq) hne⟩
    unfold fuzzy_score
    rw [if_pos hq]
  · have hrem : greedyRem (caseFold query.data) (caseFold target.data) = [] := by
      unfold fuzzy_match at h
      rw [if_neg hq, matchLoop_eq_greedyRem] at h
      exact List.isEmpty_iff.mp h
    have hscore : fuzzy_score query target =
        ((greedyMatchPositions (caseFold query.data) (caseFold target.data) 0).map
            (specCharCredit (caseFold target.data))).sum +
          specRunBonus
            (greedyMatchPositions (caseFold query.data) (caseFold target.data) 0) none 0 := by
      unfold fuzzy_score
      rw [if_neg hq]
      simp only [scoreLoop_spec, hrem]
      simp
    have hlen : (greedyMatchPositions (caseFold query.data) (caseFold target.data) 0).length
        = (caseFold query.data).length := by
      have hl := greedyMatchPositions_length (caseFold target.data) (caseFold query.data) 0
      rw [hrem] at hl
      simpa using hl
    have h5 := sum_map_specCharCredit_ge (caseFold target.data)
      (greedyMatchPositions (caseFold query.data) (caseFold target.data) 0)
    have hrb := specRunBonus_nonneg
      (greedyMatchPositions (caseFold query.data) (caseFold target.data) 0) none 0 (le_refl 0)
    have hcast : (0 : Int) ≤
        ((greedyMatchPositions (caseFold query.data) (caseFold target.data) 0).length : Int) :=
      Int.natCast_nonneg _
    constructor
    · rw [hscore]
      linarith
    · intro _
      rw [hscore, ← hlen]
      linarith

/-- Witness for C2 at a concrete input. -/
theorem fuzzy_score_eq_spec_score_witness :
    fuzzy_score "ab" "a-b" = spec_score (caseFold "ab".data) (caseFold "a-b".data) ∧
    fuzzy_score "" "a-b" = 0 :=
  fuzzy_score_eq_spec_score "ab" "a-b" (by decide)

/-- Witness for C4 at a concrete input. -/
theorem fuzzy_score_sentinel_of_nonmatch_witness : fuzzy_score "z" "ab" = -1 :=
  fuzzy_score_sentinel_of_nonmatch "z" "ab" (by decide)

/-- Witness for C10 at a concrete input. -/
theorem fuzzy_score_nonneg_of_match_witness :
    0 ≤ fuzzy_score "fc" "flow-code" ∧
      ("fc".data ≠ [] →
        5 * ((caseFold "fc".data).length : Int) ≤ fuzzy_score "fc" "flow-code") :=
  fuzzy_score_nonneg_of_match "fc" "flow-code" (by decide)

/-- Claim C1, counterexample: the claimed inequality
`fuzzy_score "ab" "ab-x" > fuzzy_score "ab" "a-b"` is false on the code:
the scores are `40` and `45`. -/
theorem consecutive_not_above_separator :
    ¬ (fuzzy_score "ab" "ab-x" > fuzzy_score "ab" "a-b") := by decide

/-- Claim C1, amended: on these inputs the separator-boundary bonus (+15)
outweighs the first consecutive-run bonus (+10), so
`fuzzy_score "ab" "ab-x" = 40 < 45 = fuzzy_score "ab" "a-b"`. -/
theorem separator_outscores_first_consecutive :
    fuzzy_score "ab" "ab-x" = 40 ∧ fuzzy_score "ab" "a-b" = 45 ∧
      fuzzy_score "ab" "ab-x" < fuzzy_score "ab" "a-b" := by decide

theorem fuzzy_score_empty_query (target : String) : fuzzy_score "" target = 0 := rfl

/-- Claim C7: `fuzzy_sort` is stable: for every query, the subsequence of
items attaining any given score is returned in input order (equal-score
items retain their relative order), and sorting with the empty query
(under which every item scores `0`) performs no reordering at all. -/
theorem fuzzy_sort_stable {α : Type} (items : List α) (query : String) (get_str : α → String) :
    (∀ s : Int,
      (fuzzy_sort items query get_str).filter
          (fun x => decide (fuzzy_score query (get_str x) = s)) =
        items.filter (fun x => decide (fuzzy_score query (get_str x) = s))) ∧
    fuzzy_sort items "" get_str = items := by
  constructor
  · intro s
    set le : α → α → Bool := fun a b =>
      decide (fuzzy_score query (get_str b) ≤ fuzzy_score query (get_str a)) with hle
    set p : α → Bool := fun x => decide (fuzzy_score query (get_str x) = s) with hp
    have htrans : ∀ a b c, le a b → le b c → le a c := by
      intro a b c hab hbc
      simp only [hle, decide_eq_true_eq] at hab hbc ⊢
      exact le_trans hbc hab
    have htotal : ∀ a b, le a b || le b a := by
      intro a b
      simp only [hle]
      rcases le_total (fuzzy_score query (get_str b)) (fuzzy_score query (get_str a)) with
        h | h
      · simp [h]
      · simp [h]
    have hc_pair : (items.filter p).Pairwise (fun a b => le a b = true) := by
      apply List.pairwise_of_forall_mem_list
      intro a ha b hb
      have ha' := (List.mem_filter.mp ha).2
      have hb' := (List.mem_filter.mp hb).2
      simp only [hp, decide_eq_true_eq] at ha' hb'
      simp [hle, ha', hb']
    have hsub : List.Sublist (items.filter p) (fuzzy_sort items query get_str) := by
      unfold fuzzy_sort
      exact List.sublist_mergeSort htrans htotal hc_pair (List.filter_sublist items)
    have hperm : List.Perm (fuzzy_sort items query get_str) items :=
      List.mergeSort_perm items le
    have hfil_perm : List.Perm ((fuzzy_sort items query get_str).filter p)
        (items.filter p) := hperm.filter p
    have hc_self : (items.filter p).filter p = items.filter p := by
      rw [List.filter_eq_self]
      intro a ha
      exact (List.mem_filter.mp ha).2
    have hfil_sub : List.Sublist (items.filter p)
        ((fuzzy_sort items query get_str).filter p) := by
      have h2 := hsub.filter p
      rwa [hc_self] at h2
    exact (hfil_sub.eq_of_length hfil_perm.length_eq.symm).symm
  · unfold fuzzy_sort
    apply List.mergeSort_of_sorted
    apply List.pairwise_of_forall_mem_list
    intro a _ b _
    simp [fuzzy_score_empty_query]


-- ===== discovery: invariants of the traversal =====

theorem processDir_invariant (fs : Fs) (root dir : FsPath) (hdir : goodDir root dir) :
    ∀ (entries : List (String × Bool)) (stack : List FsPath) (seen : List String)
      (repos : List CodeEntry),
      (∀ p ∈ stack, goodDir root p) →
      (∀ e ∈ repos, goodEntry root e) →
      (∀ e ∈ repos, pathKey e.path ∈ seen) →
      repos.Pairwise (fun a b => pathKey a.path ≠ pathKey b.path) →
      (∀ p ∈ (processDir fs root dir entries stack seen repos).1, goodDir root p) ∧
      (∀ e ∈ (processDir fs root dir entries stack seen repos).2.2, goodEntry root e) ∧
      (∀ e ∈ (processDir fs root dir entries stack seen repos).2.2,
          pathKey e.path ∈ (processDir fs root dir entries stack seen repos).2.1) ∧
      (processDir fs root dir entries stack seen repos).2.2.Pairwise
        (fun a b => pathKey a.path ≠ pathKey b.path) := by
  intro entries
  induction entries with
  | nil =>
    intro stack seen repos hstack hrepos hkeys hpair
    exact ⟨hstack, hrepos, hkeys, hpair⟩
  | cons e rest ih =>
    obtain ⟨name, d⟩ := e
    intro stack seen repos hstack hrepos hkeys hpair
    by_cases hd : d = true
    · subst hd
      by_cases hskip : should_skip_dir name = true
      · rw [show processDir fs root dir ((name, true) :: rest) stack seen repos =
              processDir fs root dir rest stack seen repos from by simp [processDir, hskip]]
        exact ih stack seen repos hstack hrepos hkeys hpair
      · have hskipf : should_skip_dir name = false := by simpa using hskip
        obtain ⟨rel, hrel, hsf⟩ := hdir
        have hrelname : dir ++ [name] = root ++ (rel ++ [name]) := by
          rw [hrel, List.append_assoc]
        have hsfname : skipFree (rel ++ [name]) := by
          intro c hc
          rcases List.mem_append.mp hc with hc | hc
          · exact hsf c hc
          · rw [List.mem_singleton.mp hc]
            exact hskipf
        by_cases hgit : (isDirAt fs (dir ++ [name, ".git"]) ||
            isFileAt fs (dir ++ [name, ".git"])) = true
        · by_cases hseen : pathKey (dir ++ [name]) ∈ seen
          · rw [show processDir fs root dir ((name, true) :: rest) stack seen repos =
                  processDir fs root dir rest stack seen repos
                from by simp [processDir, hskipf, hgit, hseen]]
            exact ih stack seen repos hstack hrepos hkeys hpair
          · rw [show processDir fs root dir ((name, true) :: rest) stack seen repos =
                  processDir fs root dir rest stack (pathKey (dir ++ [name]) :: seen)
                    (repos ++ [CodeEntry.mk
                      (match stripRoot root (dir ++ [name]) with
                        | some r => pathKey r
                        | none => pathKey (dir ++ [name]))
                      (dir ++ [name])])
                from by simp [processDir, hskipf, hgit, hseen]]
            apply ih
            · exact hstack
            · intro e he
              rcases List.mem_append.mp he with he | he
              · exact hrepos e he
              · rw [List.mem_singleton.mp he]
                exact ⟨rel ++ [name], hrelname, by simp, hsfname⟩
            · intro e he
              rcases List.mem_append.mp he with he | he
              · exact List.mem_cons_of_mem _ (hkeys e he)
              · rw [List.mem_singleton.mp he]
                exact List.mem_cons_self _ _
            · rw [List.pairwise_append]
              refine ⟨hpair, List.pairwise_singleton _ _, ?_⟩
              intro a ha b hb
              rw [List.mem_singleton.mp hb]
              intro hk
              exact hseen (hk ▸ hkeys a ha)
        · rw [show processDir fs root dir ((name, true) :: rest) stack seen repos =
                processDir fs root dir rest ((dir ++ [name]) :: stack) seen repos
              from by simp [processDir, hskipf, hgit]]
          apply ih
          · intro p hp
            rcases List.mem_cons.mp hp with hp | hp
            · rw [hp]
              exact ⟨rel ++ [name], hrelname, hsfname⟩
            · exact hstack p hp
          · exact hrepos
          · exact hkeys
          · exact hpair
    · have hdf : d = false := by simpa using hd
      subst hdf
      rw [show processDir fs root dir ((name, false) :: rest) stack seen repos =
            processDir fs root dir rest stack seen repos from by simp [processDir]]
      exact ih stack seen repos hstack hrepos hkeys hpair

theorem processDir_agree (fs fs' : Fs) (root dir : FsPath) (hdir : goodDir root dir)
    (hag : agreeOnReachable fs fs' root) :
    ∀ (entries : List (String × Bool)) (stack : List FsPath) (seen : List String)
      (repos : List CodeEntry),
      processDir fs root dir entries stack seen repos =
        processDir fs' root dir entries stack seen repos := by
  intro entries
  induction entries with
  | nil => intro stack seen repos; rfl
  | cons e rest ih =>
    obtain ⟨name, d⟩ := e
    intro stack seen repos
    by_cases hd : d = true
    · subst hd
      by_cases hskip : should_skip_dir name = true
      · rw [show processDir fs root dir ((name, true) :: rest) stack seen repos =
              processDir fs root dir rest stack seen repos from by simp [processDir, hskip],
            show processDir fs' root dir ((name, true) :: rest) stack seen repos =
              processDir fs' root dir rest stack seen repos from by simp [processDir, hskip]]
        exact ih stack seen repos
      · have hskipf : should_skip_dir name = false := by simpa using hskip
        obtain ⟨rel, hrel, hsf⟩ := hdir
        have hsfname : skipFree (rel ++ [name]) := by
          intro c hc
          rcases List.mem_append.mp hc with hc | hc
          · exact hsf c hc
          · rw [List.mem_singleton.mp hc]
            exact hskipf
        have hgit_eq : fs (dir ++ [name, ".git"]) = fs' (dir ++ [name, ".git"]) := by
          have hfs := (hag (rel ++ [name]) hsfname).2
          have hshape : dir ++ [name, ".git"] = root ++ (rel ++ [name]) ++ [".git"] := by
            rw [hrel]
            simp
          rw [hshape]
          exact hfs
        have h1 : isDirAt fs (dir ++ [name, ".git"]) =
            isDirAt fs' (dir ++ [name, ".git"]) := by
          unfold isDirAt
          rw [hgit_eq]
        have h2 : isFileAt fs (dir ++ [name, ".git"]) =
            isFileAt fs' (dir ++ [name, ".git"]) := by
          unfold isFileAt
          rw [hgit_eq]
        simp only [processDir, hskipf, Bool.not_true, Bool.false_eq_true, if_false,
          List.append_assoc, List.cons_append, List.nil_append, h1, h2]
        split_ifs <;> exact ih _ _ _
    · have hdf : d = false := by simpa using hd
      subst hdf
      rw [show processDir fs root dir ((name, false) :: rest) stack seen repos =
            processDir fs root dir rest stack seen repos from by simp [processDir],
          show processDir fs' root dir ((name, false) :: rest) stack seen repos =
            processDir fs' root dir rest stack seen repos from by simp [processDir]]
      exact ih stack seen repos

theorem discoverLoop_invariant (fs : Fs) (root : FsPath) :
    ∀ (fuel : Nat) (stack : List FsPath) (seen : List String) (repos : List CodeEntry)
      (result : List CodeEntry),
      discoverLoop fs root fuel stack seen repos = some result →
      (∀ p ∈ stack, goodDir root p) →
      (∀ e ∈ repos, goodEntry root e) →
      (∀ e ∈ repos, pathKey e.path ∈ seen) →
      repos.Pairwise (fun a b => pathKey a.path ≠ pathKey b.path) →
      (∀ e ∈ result, goodEntry root e) ∧
        result.Pairwise (fun a b => pathKey a.path ≠ pathKey b.path) ∧
        ∀ fs' : Fs, agreeOnReachable fs fs' root →
          discoverLoop fs' root fuel stack seen repos = some result := by
  intro fuel
  induction fuel with
  | zero =>
    intro stack seen repos result h hstack hrepos hkeys hpair
    cases stack with
    | nil =>
      have hres : repos = result := by simpa [discoverLoop] using h
      subst hres
      exact ⟨hrepos, hpair, fun fs' _ => by simp [discoverLoop]⟩
    | cons d st => simp [discoverLoop] at h
  | succ fuel ih =>
    intro stack seen repos result h hstack hrepos hkeys hpair
    cases stack with
    | nil =>
      have hres : repos = result := by simpa [discoverLoop] using h
      subst hres
      exact ⟨hrepos, hpair, fun fs' _ => by simp [discoverLoop]⟩
    | cons dir stack =>
      have hdir : goodDir root dir := hstack dir (List.mem_cons_self _ _)
      have hstack' : ∀ p ∈ stack, goodDir root p :=
        fun p hp => hstack p (List.mem_cons_of_mem _ hp)
      cases hrd : readDir fs dir with
      | none =>
        rw [show discoverLoop fs root (fuel + 1) (dir :: stack) seen repos =
              discoverLoop fs root fuel stack seen repos
            from by simp [discoverLoop, hrd]] at h
        obtain ⟨hg, hp2, hagf⟩ := ih stack seen repos result h hstack' hrepos hkeys hpair
        refine ⟨hg, hp2, ?_⟩
        intro fs' hag
        have hrd' : readDir fs' dir = none := by
          obtain ⟨rel, hrel, hsf⟩ := hdir
          unfold readDir at hrd ⊢
          rw [hrel] at hrd ⊢
          rw [← (hag rel hsf).1]
          exact hrd
        rw [show discoverLoop fs' root (fuel + 1) (dir :: stack) seen repos =
              discoverLoop fs' root fuel stack seen repos
            from by simp [discoverLoop, hrd']]
        exact hagf fs' hag
      | some entries =>
        have hinv := processDir_invariant fs root dir hdir entries stack seen repos
          hstack' hrepos hkeys hpair
        rw [show discoverLoop fs root (fuel + 1) (dir :: stack) seen repos =
              discoverLoop fs root fuel
                (processDir fs root dir entries stack seen repos).1
                (processDir fs root dir entries stack seen repos).2.1
                (processDir fs root dir entries stack seen repos).2.2
            from by simp [discoverLoop, hrd]] at h
        obtain ⟨hg, hp2, hagf⟩ := ih _ _ _ result h hinv.1 hinv.2.1 hinv.2.2.1 hinv.2.2.2
        refine ⟨hg, hp2, ?_⟩
        intro fs' hag
        have hrd' : readDir fs' dir = some entries := by
          obtain ⟨rel, hrel, hsf⟩ := hdir
          unfold readDir at hrd ⊢
          rw [hrel] at hrd ⊢
          rw [← (hag rel hsf).1]
          exact hrd
        have hpd := processDir_agree fs fs' root dir hdir hag entries stack seen repos
        rw [show discoverLoop fs' root (fuel + 1) (dir :: stack) seen repos =
              discoverLoop fs' root fuel
                (processDir fs' root dir entries stack seen repos).1
                (processDir fs' root dir entries stack seen repos).2.1
                (processDir fs' root dir entries stack seen repos).2.2
            from by simp [discoverLoop, hrd']]
        rw [← hpd]
        exact hagf fs' hag

theorem strLe_total : ∀ a b : List Char, (strLe a b || strLe b a) = true := by
  intro a
  induction a with
  | nil => intro b; simp [strLe]
  | cons x xs ih =>
    intro b
    cases b with
    | nil => simp [strLe]
    | cons y ys =>
      by_cases hxy : x < y
      · simp [strLe, hxy]
      · by_cases hyx : y < x
        · simp [strLe, hxy, hyx]
        · simpa [strLe, hxy, hyx] using ih ys

theorem strLe_trans : ∀ a b c : List Char,
    strLe a b = true → strLe b c = true → strLe a c = true := by
  intro a
  induction a with
  | nil => intro b c _ _; rfl
  | cons x xs ih =>
    intro b c hab hbc
    cases b with
    | nil => simp [strLe] at hab
    | cons y ys =>
      cases c with
      | nil => simp [strLe] at hbc
      | cons z zs =>
        by_cases hxy : x < y
        · by_cases hyz : y < z
          · simp [strLe, lt_trans hxy hyz]
          · by_cases hzy : z < y
            · simp [strLe, hyz, hzy] at hbc
            · have hyz' : y = z := le_antisymm (not_lt.mp hzy) (not_lt.mp hyz)
              subst hyz'
              simp [strLe, hxy]
        · by_cases hyx : y < x
          · simp [strLe, hxy, hyx] at hab
          · have hxy' : x = y := le_antisymm (not_lt.mp hyx) (not_lt.mp hxy)
            subst hxy'
            have hab' : strLe xs ys = true := by simpa [strLe, hxy] using hab
            by_cases hxz : x < z
            · simp [strLe, hxz]
            · by_cases hzx : z < x
              · simp [strLe, hxz, hzx] at hbc
              · have hbc' : strLe ys zs = true := by simpa [strLe, hxz, hzx] using hbc
                simpa [strLe, hxz, hzx] using ih ys zs hab' hbc'

theorem length_filter_path_le_one : ∀ (l : List CodeEntry),
    l.Pairwise (fun a b => a.path ≠ b.path) →
    ∀ p : FsPath, (l.filter (fun e => decide (e.path = p))).length ≤ 1 := by
  intro l
  induction l with
  | nil => intro _ p; simp
  | cons e l ih =>
    intro hp p
    have hpt := List.pairwise_cons.mp hp
    by_cases he : e.path = p
    · rw [List.filter_cons_of_pos (by simp [he])]
      have hnil : l.filter (fun x => decide (x.path = p)) = [] := by
        rw [List.filter_eq_nil_iff]
        intro a ha
        simp only [decide_eq_true_eq]
        intro hap
        exact hpt.1 a ha (by rw [he, hap])
      rw [hnil]
      simp
    · rw [List.filter_cons_of_neg (by simp [he])]
      exact ih hpt.2 p

theorem discover_repos_eq (fs : Fs) (fuel : Nat) (root : FsPath) (result : List CodeEntry)
    (h : discover_repos fs fuel root = some result) :
    ∃ repos0, discoverLoop fs root fuel [root] [] [] = some repos0 ∧
      result = repos0.mergeSort (fun a b => strLe a.display.data b.display.data) := by
  unfold discover_repos at h
  cases hl : discoverLoop fs root fuel [root] [] [] with
  | none => rw [hl] at h; simp at h
  | some r =>
    rw [hl] at h
    simp at h
    exact ⟨r, rfl, h.symm⟩

theorem discover_repos_invariant (fs : Fs) (fuel : Nat) (root : FsPath)
    (repos0 : List CodeEntry)
    (hloop : discoverLoop fs root fuel [root] [] [] = some repos0) :
    (∀ e ∈ repos0, goodEntry root e) ∧
      repos0.Pairwise (fun a b => pathKey a.path ≠ pathKey b.path) ∧
      ∀ fs' : Fs, agreeOnReachable fs fs' root →
        discoverLoop fs' root fuel [root] [] [] = some repos0 :=
  discoverLoop_invariant fs root fuel [root] [] [] repos0 hloop
    (by
      intro p hp
      rw [List.mem_singleton.mp hp]
      exact ⟨[], by simp, fun c hc => absurd hc (List.not_mem_nil c)⟩)
    (fun e he => absurd he (List.not_mem_nil e))
    (fun e he => absurd he (List.not_mem_nil e))
    List.Pairwise.nil

-- ===== claim theorems: discovery =====

/-- Claim C5: within one `discover_repos` call the result is deduplicated
by absolute path (the seen-set is keyed on the path string, not the
display name): any two distinct entries of the result have different
absolute paths, and each absolute path contributes at most one entry. -/
theorem discover_repos_dedup (fs : Fs) (fuel : Nat) (root : FsPath)
    (result : List CodeEntry) (h : discover_repos fs fuel root = some result) :
    result.Pairwise (fun a b => a.path ≠ b.path) ∧
    ∀ p : FsPath, (result.filter (fun e => decide (e.path = p))).length ≤ 1 := by
  obtain ⟨repos0, hloop, hsort⟩ := discover_repos_eq fs fuel root result h
  have hinv := discover_repos_invariant fs fuel root repos0 hloop
  have hpath0 : repos0.Pairwise (fun a b => a.path ≠ b.path) :=
    hinv.2.1.imp (fun hk hab => hk (by rw [hab]))
  have hperm : List.Perm result repos0 := by
    rw [hsort]
    exact List.mergeSort_perm _ _
  have hpath : result.Pairwise (fun a b => a.path ≠ b.path) :=
    (List.Perm.pairwise_iff (fun hab hba => hab hba.symm) hperm).mpr hpath0
  exact ⟨hpath, length_filter_path_le_one result hpath⟩

/-- Claim C6: `discover_repos` prunes skipped directories before traversal:
no reported repository lies under a component whose basename is in the
skip set or starts with `.` (so a `.git`-marked repository nested inside
`node_modules` is never found), and the result does not depend on the
filesystem's content at any path that passes through a skipped
directory. -/
theorem discover_repos_prunes_skipped (fs : Fs) (fuel : Nat) (root : FsPath)
    (result : List CodeEntry) (h : discover_repos fs fuel root = some result) :
    (∀ e ∈ result, ∀ c ∈ e.path.drop root.length, should_skip_dir c = false) ∧
    ∀ fs' : Fs, agreeOnReachable fs fs' root →
      discover_repos fs' fuel root = some result := by
  obtain ⟨repos0, hloop, hsort⟩ := discover_repos_eq fs fuel root result h
  have hinv := discover_repos_invariant fs fuel root repos0 hloop
  have hperm : List.Perm result repos0 := by
    rw [hsort]
    exact List.mergeSort_perm _ _
  constructor
  · intro e he c hc
    obtain ⟨rel, hrel, _, hsf⟩ := hinv.1 e (hperm.mem_iff.mp he)
    rw [hrel, List.drop_left] at hc
    exact hsf c hc
  · intro fs' hag
    have hl' := hinv.2.2 fs' hag
    unfold discover_repos
    rw [hl']
    simp [hsort]

/-- Claim C8: both discovery functions return their entries sorted
ascending by byte/codepoint-lexicographic order of the `display` field
(`strLe` on the display's character lists). -/
theorem discover_sorted_by_display (fs : Fs) (fuel : Nat) (root : FsPath)
    (result : List CodeEntry) (h : discover_repos fs fuel root = some result) :
    result.Pairwise (fun a b => strLe a.display.data b.display.data = true) ∧
    (discover_repos_structured fs root).Pairwise
      (fun a b => strLe a.display.data b.display.data = true) := by
  obtain ⟨repos0, hloop, hsort⟩ := discover_repos_eq fs fuel root result h
  constructor
  · rw [hsort]
    exact @List.sorted_mergeSort CodeEntry
      (fun a b => strLe a.display.data b.display.data)
      (fun a b c hab hbc => strLe_trans _ _ _ hab hbc)
      (fun a b => strLe_total _ _) repos0
  · unfold discover_repos_structured
    exact @List.sorted_mergeSort CodeEntry
      (fun a b => strLe a.display.data b.display.data)
      (fun a b c hab hbc => strLe_trans _ _ _ hab hbc)
      (fun a b => strLe_total _ _) _

/-- Claim C9: `discover_repos` never reports the scan root itself, even
when the root carries a `.git` marker: every returned entry's path
strictly extends the root. -/
theorem discover_repos_root_excluded (fs : Fs) (fuel : Nat) (root : FsPath)
    (result : List CodeEntry) (h : discover_repos fs fuel root = some result) :
    ∀ e ∈ result, e.path ≠ root := by
  obtain ⟨repos0, hloop, hsort⟩ := discover_repos_eq fs fuel root result h
  have hinv := discover_repos_invariant fs fuel root repos0 hloop
  have hperm : List.Perm result repos0 := by
    rw [hsort]
    exact List.mergeSort_perm _ _
  intro e he
  obtain ⟨rel, hrel, hne, _⟩ := hinv.1 e (hperm.mem_iff.mp he)
  rw [hrel]
  intro heq
  apply hne
  have hlen := congrArg List.length heq
  simp only [List.length_append] at hlen
  have : rel.length = 0 := by omega
  exact List.length_eq_zero.mp this

theorem fsEx2_agree : agreeOnReachable fsEx fsEx2 ["r"] := by
  intro rel hrel
  have hnm : "node_modules" ∉ rel := fun hm => absurd (hrel _ hm) (by decide)
  constructor
  · have hne1 : ¬ ((["r"] : FsPath) ++ rel = ["r", "node_modules", "hidden"]) := by
      intro he
      apply hnm
      have h2 : rel = ["node_modules", "hidden"] := by simpa using he
      simp [h2]
    have hne2 : ¬ ((["r"] : FsPath) ++ rel = ["r", "node_modules", "hidden", ".git"]) := by
      intro he
      apply hnm
      have h2 : rel = ["node_modules", "hidden", ".git"] := by simpa using he
      simp [h2]
    show fsEx (["r"] ++ rel) = fsEx2 (["r"] ++ rel)
    unfold fsEx2
    rw [if_neg hne1, if_neg hne2]
  · have hne1 : ¬ ((["r"] : FsPath) ++ rel ++ [".git"] = ["r", "node_modules", "hidden"]) := by
      intro he
      have h2 : rel ++ [".git"] = ["node_modules", "hidden"] := by simpa using he
      have h3 := congrArg List.reverse h2
      simp at h3
    have hne2 : ¬ ((["r"] : FsPath) ++ rel ++ [".git"] =
        ["r", "node_modules", "hidden", ".git"]) := by
      intro he
      apply hnm
      have h2 : rel ++ [".git"] = ["node_modules", "hidden", ".git"] := by simpa using he
      have h3 := congrArg List.reverse h2
      simp at h3
      have h4 : rel = ["node_modules", "hidden"] := by
        have h5 := congrArg List.reverse h3
        simpa using h5
      simp [h4]
    show fsEx (["r"] ++ rel ++ [".git"]) = fsEx2 (["r"] ++ rel ++ [".git"])
    unfold fsEx2
    rw [if_neg hne1, if_neg hne2]

unseal List.merge List.mergeSort in
/-- Witness for C5: `fsEx` lists `proj` twice (two candidates with the
same absolute path), yet the result holds it once. -/
theorem discover_repos_dedup_witness :
    ([CodeEntry.mk "proj" ["r", "proj"],
      CodeEntry.mk "sub/inner" ["r", "sub", "inner"]]).Pairwise
        (fun a b => a.path ≠ b.path) ∧
    (([CodeEntry.mk "proj" ["r", "proj"],
        CodeEntry.mk "sub/inner" ["r", "sub", "inner"]]).filter
      (fun e => decide (e.path = ["r", "proj"]))).length ≤ 1 :=
  ⟨(discover_repos_dedup fsEx 10 ["r"]
      [CodeEntry.mk "proj" ["r", "proj"], CodeEntry.mk "sub/inner" ["r", "sub", "inner"]]
      (by decide)).1,
   (discover_repos_dedup fsEx 10 ["r"]
      [CodeEntry.mk "proj" ["r", "proj"], CodeEntry.mk "sub/inner" ["r", "sub", "inner"]]
      (by decide)).2 ["r", "proj"]⟩

unseal List.merge List.mergeSort in
/-- Witness for C6: deleting the decoy repository hidden inside
`node_modules` does not change the discovery result. -/
theorem discover_repos_prunes_skipped_witness :
    discover_repos fsEx2 10 ["r"] =
      some [CodeEntry.mk "proj" ["r", "proj"],
        CodeEntry.mk "sub/inner" ["r", "sub", "inner"]] :=
  (discover_repos_prunes_skipped fsEx 10 ["r"]
    [CodeEntry.mk "proj" ["r", "proj"], CodeEntry.mk "sub/inner" ["r", "sub", "inner"]]
    (by decide)).2 fsEx2 fsEx2_agree

unseal List.merge List.mergeSort in
/-- Witness for C8 at the concrete filesystem `fsEx`. -/
theorem discover_sorted_by_display_witness :
    ([CodeEntry.mk "proj" ["r", "proj"],
      CodeEntry.mk "sub/inner" ["r", "sub", "inner"]]).Pairwise
        (fun a b => strLe a.display.data b.display.data = true) ∧
    (discover_repos_structured fsEx ["r"]).Pairwise
      (fun a b => strLe a.display.data b.display.data = true) :=
  discover_sorted_by_display fsEx 10 ["r"]
    [CodeEntry.mk "proj" ["r", "proj"], CodeEntry.mk "sub/inner" ["r", "sub", "inner"]]
    (by decide)

unseal List.merge List.mergeSort in
/-- Witness for C9: the root `["r"]` of `fsEx` carries a `.git` marker,
and still is not among the returned entries. -/
theorem discover_repos_root_excluded_witness :
    (CodeEntry.mk "proj" ["r", "proj"]).path ≠ ["r"] :=
  discover_repos_root_excluded fsEx 10 ["r"]
    [CodeEntry.mk "proj" ["r", "proj"], CodeEntry.mk "sub/inner" ["r", "sub", "inner"]]
    (by decide) (CodeEntry.mk "proj" ["r", "proj"]) (List.mem_cons_self _ _)

end Flow
